import Mathlib

/-!
Verification of testMutex.cpp: segmented threads under one mutex.

A shallow embedding of `src/testMutex.cpp`.

* `std::vector<int>` is a `List Int`. An `int` is 32 bits wide, `std::size_t` 64 bits.
  Every value the program stores in an `int` goes through `toInt32`: a narrowing
  conversion keeps the value modulo `2^32`, and signed overflow is modelled as
  wrap-around. The theorems that speak of exact integers carry the range
  assumptions under which `toInt32` changes nothing.
* `image.size()` is a natural number; an `int` operand of a `size_t` operation goes
  through `toSizeT`.
* A subscript `image[i]` outside the vector and a division by zero have no defined
  result: the functions return `none` there.
* The bodies of `applyBlur` and `applySharpen` run under a `std::lock_guard` on the one
  mutex created in `main`. `Thread.run` and `runOrder` describe threads executed one
  after the other, each from lock acquisition to release; `stepThread`, `Step` and
  `Reachable` describe the interleaved execution of `main` and its threads, and
  `finished_is_sequential` relates the two.
-/

namespace TestMutex

/-! ## Machine integers -/

/-- The value of a 32-bit two's complement `int` that receives the
mathematical integer `x` (conversion from a wider type, or wrap-around of an
arithmetic result). -/
def toInt32 (x : Int) : Int :=
  (x + 2147483648) % 4294967296 - 2147483648

/-- The value of a 64-bit `std::size_t` that receives the integer `x`. -/
def toSizeT (x : Int) : Nat :=
  (x % 18446744073709551616).toNat

/-- The predicate: `x` is representable as an `int`. -/
def InInt32 (x : Int) : Prop :=
  -2147483648 ≤ x ∧ x < 2147483648

instance (x : Int) : Decidable (InInt32 x) := by
  unfold InInt32; infer_instance

/-! ## The two filters (lines 14-32) -/

/-- The statement `image[i] *= 3;` on one element. -/
def blurPixel (x : Int) : Int := toInt32 (x * 3)

/-- The statement `image[i] += 100;` on one element. -/
def sharpenPixel (x : Int) : Int := toInt32 (x + 100)

/-- The loop `for (int i = ...; i < endX; i++) { image[i] = f(image[i]); }`
with `n` iterations left to run and loop variable `i`. A negative `i`, or one
past the end of the vector, is an out-of-range subscript. -/
def elementLoop (f : Int → Int) (image : List Int) (i : Int) : Nat → Option (List Int)
  | 0 => some image
  | n + 1 =>
    if i < 0 then none
    else
      match image[i.toNat]? with
      | none => none
      | some x => elementLoop f (image.set i.toNat (f x)) (i + 1) n

/-- The function `applyBlur(image, startX, endX, myMutex)`: with the mutex held, the
loop from `startX` up to `endX` (it runs `endX - startX` times, not at all
when `endX ≤ startX`) multiplying each element by 3. -/
def applyBlur (image : List Int) (startX endX : Int) : Option (List Int) :=
  elementLoop blurPixel image startX (endX - startX).toNat

/-- The function `applySharpen(image, startX, endX, myMutex)`: with the mutex held,
the loop from `startX` up to `endX` adding 100 to each element. -/
def applySharpen (image : List Int) (startX endX : Int) : Option (List Int) :=
  elementLoop sharpenPixel image startX (endX - startX).toNat

/-! ## Segment computation and thread creation in `main` (lines 46-60) -/

/-- Line 47: `int segments = std::thread::hardware_concurrency();`
(the reported value `h` is an `unsigned int`). -/
def segments (h : Nat) : Int :=
  toInt32 ((h % 4294967296 : Nat) : Int)

/-- Line 48: `int segmentSize = image.size() / segments;`. The division is a
`size_t` division; its result is undefined when the divisor is zero. -/
def segmentSize (size : Nat) (segs : Int) : Option Int :=
  if toSizeT segs = 0 then none
  else some (toInt32 ((size / toSizeT segs : Nat) : Int))

/-- Line 56: `int startX = i * segmentSize;`. -/
def startX (i segSize : Int) : Int :=
  toInt32 (i * segSize)

/-- Line 57:
`int endX = (i == segments - 1) ? image.size() : startX + segmentSize;`. -/
def endX (size : Nat) (segs i segSize : Int) : Int :=
  if i = toInt32 (segs - 1) then toInt32 (size : Int)
  else toInt32 (startX i segSize + segSize)

/-- The function a thread runs. -/
inductive Filter where
  | blur
  | sharpen
  deriving DecidableEq

/-- One element of `threads`: the function and the segment bounds it was given. -/
structure Thread where
  filter : Filter
  startX : Int
  endX : Int
  deriving DecidableEq

/-- The element operation of a task. -/
def Thread.pixel (t : Thread) : Int → Int :=
  match t.filter with
  | Filter.blur => blurPixel
  | Filter.sharpen => sharpenPixel

/-- One task run from lock acquisition to release. -/
def Thread.run (t : Thread) (image : List Int) : Option (List Int) :=
  match t.filter with
  | Filter.blur => applyBlur image t.startX t.endX
  | Filter.sharpen => applySharpen image t.startX t.endX

/-- The two `threads.emplace_back` calls of iteration `i` (lines 58-59). -/
def spawnPair (size : Nat) (segs segSize : Int) (i : Nat) : List Thread :=
  [ Thread.mk Filter.blur (startX i segSize) (endX size segs i segSize),
    Thread.mk Filter.sharpen (startX i segSize) (endX size segs i segSize) ]

/-- The vector `threads` after the loop `for (int i = 0; i < segments; i++)`
of lines 55-60: thread `2 * i` blurs segment `i`, thread `2 * i + 1` sharpens it. -/
def spawnThreads (size : Nat) (segs segSize : Int) : List Thread :=
  (List.range segs.toNat).flatMap (spawnPair size segs segSize)

/-- The threads `main` creates for a vector of `size` elements when
`hardware_concurrency()` reports `segs` (already converted to `int`);
`none` when the segment size is undefined. -/
def mainThreads (size : Nat) (segs : Int) : Option (List Thread) :=
  (segmentSize size segs).map (spawnThreads size segs)

/-- The tasks run one after the other, each holding the mutex for its whole
loop, in the order given by `order` (a list of positions in `threads`). -/
def runOrder (threads : List Thread) : List Nat → List Int → Option (List Int)
  | [], image => some image
  | j :: rest, image =>
    match threads[j]? with
    | none => none
    | some t =>
      match t.run image with
      | none => none
      | some next => runOrder threads rest next

/-- In `order`, position `a` is met before position `b`. -/
def comesBefore (a b : Nat) : List Nat → Bool
  | [] => false
  | j :: rest => if j = a then true else if j = b then false else comesBefore a b rest

/-- Line 38: the vector the program processes. -/
def inputImage : List Int := [1, 1, 1, 1, 1, 1, 1, 1, 1, 1, 1, 1]

/-- The segment of a task lies inside a vector of `L` elements. -/
def Thread.InBounds (L : Nat) (t : Thread) : Prop :=
  0 ≤ t.startX ∧ t.startX ≤ t.endX ∧ t.endX ≤ (L : Int)

/-- What thread `j` does to the element at index `i` holding `x`. -/
def effectAt (threads : List Thread) (i : Nat) (x : Int) (j : Nat) : Int :=
  match threads[j]? with
  | none => x
  | some t => if t.startX ≤ (i : Int) ∧ (i : Int) < t.endX then t.pixel x else x

/-- The element at index `i`, initially `x`, after the threads ran in `order`. -/
def valueAfter (threads : List Thread) (order : List Nat) (i : Nat) (x : Int) : Int :=
  order.foldl (effectAt threads i) x

/-- The vector after a loop over `[lo, hi)` applying `f`: the closed form. -/
def segMap (f : Int → Int) (lo hi : Int) (image : List Int) : List Int :=
  image.mapIdx (fun j x => if lo ≤ (j : Int) ∧ (j : Int) < hi then f x else x)

/-! ## The threads running concurrently -/

/-- Where a thread is in `applyBlur` / `applySharpen`. -/
inductive Pc where
  /-- Created by `threads.emplace_back`; the `lock_guard` has not yet acquired the mutex. -/
  | created
  /-- Inside the element loop, which runs with the mutex held; `i` is the loop variable. -/
  | inLoop (i : Int)
  /-- Returned: the `lock_guard` went out of scope and released the mutex. -/
  | finished
  deriving DecidableEq

/-- The shared state: the vector, the mutex `myMutex`, and the threads created so far. -/
structure Sys where
  image : List Int
  locked : Bool
  pcs : List Pc
  deriving DecidableEq

/-- The state when `main` reaches the thread-creation loop. -/
def Sys.init (image : List Int) : Sys :=
  Sys.mk image false []

/-- One `threads.emplace_back(...)` in `main`: the next thread of the vector starts. -/
def spawnStep (threads : List Thread) (s : Sys) : Option Sys :=
  if s.pcs.length < threads.length then some (Sys.mk s.image s.locked (s.pcs ++ [Pc.created]))
  else none

/-- One step of thread `j`:
* the `lock_guard` constructor locks the mutex, which it can only do while the mutex is
  free (otherwise the thread stays blocked: no step);
* one iteration of the element loop;
* the loop condition fails, the function returns and the `lock_guard` destructor unlocks
  the mutex. -/
def stepThread (threads : List Thread) (j : Nat) (s : Sys) : Option Sys :=
  match threads[j]?, s.pcs[j]? with
  | some t, some Pc.created =>
    if s.locked then none
    else some (Sys.mk s.image true (s.pcs.set j (Pc.inLoop t.startX)))
  | some t, some (Pc.inLoop i) =>
    if i < t.endX then
      if i < 0 then none
      else
        match s.image[i.toNat]? with
        | none => none
        | some x =>
          some (Sys.mk (s.image.set i.toNat (t.pixel x)) s.locked (s.pcs.set j (Pc.inLoop (i + 1))))
    else some (Sys.mk s.image false (s.pcs.set j Pc.finished))
  | _, _ => none

/-- One step of the whole program: `main` creates a thread, or a thread moves. -/
def Step (threads : List Thread) (s next : Sys) : Prop :=
  spawnStep threads s = some next ∨ ∃ j, stepThread threads j s = some next

/-- The states some interleaving of `main` and its threads can reach. -/
inductive Reachable (threads : List Thread) (image : List Int) : Sys → Prop where
  | init : Reachable threads image (Sys.init image)
  | step {s next : Sys} : Reachable threads image s → Step threads s next →
      Reachable threads image next

/-- Thread `j` is inside its critical section (the element loop). -/
def Sys.inside (s : Sys) (j : Nat) : Prop :=
  ∃ i, s.pcs[j]? = some (Pc.inLoop i)

/-- The mutex is held whenever a thread is inside, and at most one thread is inside. -/
def Sys.Exclusive (s : Sys) : Prop :=
  (s.locked = false → ∀ j, ¬ s.inside j) ∧ (∀ a b, s.inside a → s.inside b → a = b)

/-- The threads in `done` are exactly the finished ones, they left the vector as if run
one after the other in that order, and a thread inside its loop has the rest of its
loop left to run on top of them. -/
def Sys.Linearised (threads : List Thread) (image : List Int) (s : Sys) : Prop :=
  ∃ done : List Nat, done.Nodup ∧ s.pcs.length ≤ threads.length ∧
    (∀ j, j ∈ done ↔ s.pcs[j]? = some Pc.finished) ∧
    ((∀ j, ¬ s.inside j) → runOrder threads done image = some s.image) ∧
    (∀ (j : Nat) (i : Int) (t : Thread), s.pcs[j]? = some (Pc.inLoop i) → threads[j]? = some t →
      ∃ before, runOrder threads done image = some before ∧
        elementLoop t.pixel s.image i (t.endX - i).toNat = t.run before)

/-! ## Machine integers: basic facts -/

theorem toInt32_of_inInt32 {x : Int} (h : InInt32 x) : toInt32 x = x := by
  unfold InInt32 at h
  unfold toInt32
  omega

theorem toInt32_inInt32 (x : Int) : InInt32 (toInt32 x) := by
  unfold InInt32 toInt32
  omega

theorem toInt32_natCast {n : Nat} (h : n < 2147483648) : toInt32 (n : Int) = n := by
  unfold toInt32
  omega

theorem toSizeT_natCast {n : Nat} (h : n < 18446744073709551616) : toSizeT (n : Int) = n := by
  unfold toSizeT
  omega

/-! ## The element loop -/

theorem length_segMap (f : Int → Int) (lo hi : Int) (image : List Int) :
    (segMap f lo hi image).length = image.length := by
  simp [segMap]

theorem getElem?_segMap (f : Int → Int) (lo hi : Int) (image : List Int) (j : Nat) :
    (segMap f lo hi image)[j]?
      = (image[j]?).map (fun x => if lo ≤ (j : Int) ∧ (j : Int) < hi then f x else x) := by
  simp [segMap, List.getElem?_mapIdx]

theorem elementLoop_nat (f : Int → Int) (n : Nat) :
    ∀ (image : List Int) (k : Nat), k + n ≤ image.length →
      elementLoop f image (k : Int) n = some (segMap f k (k + n : Nat) image) := by
  induction n with
  | zero =>
    intro image k _
    simp only [elementLoop, Option.some.injEq]
    apply List.ext_getElem?
    intro j
    rw [getElem?_segMap]
    cases image[j]? with
    | none => rfl
    | some x =>
      have : ¬ ((k : Int) ≤ (j : Int) ∧ (j : Int) < ((k + 0 : Nat) : Int)) := by omega
      simp only [Option.map_some', if_neg this]
  | succ n ih =>
    intro image k hk
    have hlt : k < image.length := by omega
    have hneg : ¬ ((k : Int) < 0) := by omega
    simp only [elementLoop, hneg, if_false, Int.toNat_ofNat, List.getElem?_eq_getElem hlt]
    have hcast : ((k : Int) + 1) = ((k + 1 : Nat) : Int) := by push_cast; rfl
    rw [hcast, ih (image.set k (f image[k])) (k + 1) (by simp; omega)]
    simp only [Option.some.injEq]
    apply List.ext_getElem?
    intro j
    rw [getElem?_segMap, getElem?_segMap, List.getElem?_set]
    by_cases hj : k = j
    · subst hj
      simp [hlt]
    · simp only [hj, if_false]
      cases image[j]? with
      | none => rfl
      | some x =>
        simp only [Option.map_some', Option.some.injEq]
        have : (((k + 1 : Nat) : Int) ≤ (j : Int) ∧ (j : Int) < ((k + 1 + n : Nat) : Int))
            ↔ ((k : Int) ≤ (j : Int) ∧ (j : Int) < ((k + (n + 1) : Nat) : Int)) := by
          omega
        simp only [this]

/-- The loop over a segment inside the vector produces the closed form. -/
theorem elementLoop_segMap (f : Int → Int) (image : List Int) (lo hi : Int)
    (h0 : 0 ≤ lo) (h1 : lo ≤ hi) (h2 : hi ≤ (image.length : Int)) :
    elementLoop f image lo (hi - lo).toNat = some (segMap f lo hi image) := by
  obtain ⟨k, rfl⟩ := Int.eq_ofNat_of_zero_le h0
  obtain ⟨m, rfl⟩ := Int.eq_ofNat_of_zero_le (le_trans h0 h1)
  have hkm : k ≤ m := by omega
  have hn : ((m : Int) - (k : Int)).toNat = m - k := by omega
  rw [hn, elementLoop_nat f (m - k) image k (by omega)]
  have : k + (m - k) = m := by omega
  rw [this]

theorem applyBlur_eq_segMap (image : List Int) (lo hi : Int)
    (h0 : 0 ≤ lo) (h1 : lo ≤ hi) (h2 : hi ≤ (image.length : Int)) :
    applyBlur image lo hi = some (segMap blurPixel lo hi image) :=
  elementLoop_segMap blurPixel image lo hi h0 h1 h2

theorem applySharpen_eq_segMap (image : List Int) (lo hi : Int)
    (h0 : 0 ≤ lo) (h1 : lo ≤ hi) (h2 : hi ≤ (image.length : Int)) :
    applySharpen image lo hi = some (segMap sharpenPixel lo hi image) :=
  elementLoop_segMap sharpenPixel image lo hi h0 h1 h2

theorem inputImage_getElem? {i : Nat} {x : Int} (h : inputImage[i]? = some x) : x = 1 := by
  have hx : x ∈ inputImage := List.mem_iff_getElem?.mpr ⟨i, h⟩
  simp [inputImage] at hx
  exact hx

/-! ## The filters on one segment -/

/-- C3. `applyBlur` on a segment `[startX, endX)` inside the vector, when no
product `3 * old[i]` leaves the `int` range: the call returns, the vector keeps
its length, every element of the segment is tripled and every other element
is unchanged. -/
theorem applyBlur_segment (image : List Int) (startX endX : Int)
    (h0 : 0 ≤ startX) (h1 : startX ≤ endX) (h2 : endX ≤ (image.length : Int))
    (hov : ∀ (i : Nat) (x : Int), image[i]? = some x →
      startX ≤ (i : Int) → (i : Int) < endX → InInt32 (3 * x)) :
    ∃ out, applyBlur image startX endX = some out ∧ out.length = image.length ∧
      ∀ (i : Nat) (x : Int), image[i]? = some x →
        out[i]? = some (if startX ≤ (i : Int) ∧ (i : Int) < endX then 3 * x else x) := by
  refine ⟨_, applyBlur_eq_segMap image startX endX h0 h1 h2, length_segMap _ _ _ _, ?_⟩
  intro i x hx
  rw [getElem?_segMap, hx]
  simp only [Option.map_some', Option.some.injEq]
  by_cases hin : startX ≤ (i : Int) ∧ (i : Int) < endX
  · have hr := hov i x hx hin.1 hin.2
    simp only [hin, and_self, if_true, blurPixel]
    rw [mul_comm x 3]
    exact toInt32_of_inInt32 hr
  · simp only [hin, if_false]

theorem applyBlur_segment_witness :
    ∃ out, applyBlur inputImage 3 6 = some out ∧ out.length = inputImage.length ∧
      ∀ (i : Nat) (x : Int), inputImage[i]? = some x →
        out[i]? = some (if (3 : Int) ≤ (i : Int) ∧ (i : Int) < 6 then 3 * x else x) :=
  applyBlur_segment inputImage 3 6 (by decide) (by decide) (by decide)
    (fun _ x hx _ _ => by rw [inputImage_getElem? hx]; decide)

/-- C4. `applySharpen` on a segment `[startX, endX)` inside the vector, when no
sum `old[i] + 100` leaves the `int` range: the call returns, the vector keeps
its length, every element of the segment is increased by 100 and every other
element is unchanged. -/
theorem applySharpen_segment (image : List Int) (startX endX : Int)
    (h0 : 0 ≤ startX) (h1 : startX ≤ endX) (h2 : endX ≤ (image.length : Int))
    (hov : ∀ (i : Nat) (x : Int), image[i]? = some x →
      startX ≤ (i : Int) → (i : Int) < endX → InInt32 (x + 100)) :
    ∃ out, applySharpen image startX endX = some out ∧ out.length = image.length ∧
      ∀ (i : Nat) (x : Int), image[i]? = some x →
        out[i]? = some (if startX ≤ (i : Int) ∧ (i : Int) < endX then x + 100 else x) := by
  refine ⟨_, applySharpen_eq_segMap image startX endX h0 h1 h2, length_segMap _ _ _ _, ?_⟩
  intro i x hx
  rw [getElem?_segMap, hx]
  simp only [Option.map_some', Option.some.injEq]
  by_cases hin : startX ≤ (i : Int) ∧ (i : Int) < endX
  · have hr := hov i x hx hin.1 hin.2
    simp only [hin, and_self, if_true, sharpenPixel]
    exact toInt32_of_inInt32 hr
  · simp only [hin, if_false]

theorem applySharpen_segment_witness :
    ∃ out, applySharpen inputImage 0 12 = some out ∧ out.length = inputImage.length ∧
      ∀ (i : Nat) (x : Int), inputImage[i]? = some x →
        out[i]? = some (if (0 : Int) ≤ (i : Int) ∧ (i : Int) < 12 then x + 100 else x) :=
  applySharpen_segment inputImage 0 12 (by decide) (by decide) (by decide)
    (fun _ x hx _ _ => by rw [inputImage_getElem? hx]; decide)

/-- C9. On a non-empty segment inside the vector, blur-then-sharpen and
sharpen-then-blur both return and give different vectors: at every index of
the segment the two stored values differ, they are congruent modulo `2^32` to
`3 * v + 100` and `3 * v + 300`, and they are exactly these integers when
`3 * v` and `3 * v + 300` are in the `int` range. -/
theorem blur_sharpen_order_matters (image : List Int) (startX endX : Int)
    (h0 : 0 ≤ startX) (h1 : startX < endX) (h2 : endX ≤ (image.length : Int)) :
    ∃ bs sb,
      (applyBlur image startX endX).bind (fun b => applySharpen b startX endX) = some bs ∧
      (applySharpen image startX endX).bind (fun b => applyBlur b startX endX) = some sb ∧
      bs ≠ sb ∧
      ∀ (i : Nat) (v : Int), image[i]? = some v → startX ≤ (i : Int) → (i : Int) < endX →
        ∃ p q, bs[i]? = some p ∧ sb[i]? = some q ∧ p ≠ q ∧
          p % 4294967296 = (3 * v + 100) % 4294967296 ∧
          q % 4294967296 = (3 * v + 300) % 4294967296 ∧
          (InInt32 (3 * v) → InInt32 (3 * v + 300) → p = 3 * v + 100 ∧ q = 3 * v + 300) := by
  have hle : startX ≤ endX := le_of_lt h1
  have hb := applyBlur_eq_segMap image startX endX h0 hle h2
  have hs := applySharpen_eq_segMap image startX endX h0 hle h2
  have hbs := applySharpen_eq_segMap (segMap blurPixel startX endX image) startX endX h0 hle
    (by rw [length_segMap]; exact h2)
  have hsb := applyBlur_eq_segMap (segMap sharpenPixel startX endX image) startX endX h0 hle
    (by rw [length_segMap]; exact h2)
  have key : ∀ (i : Nat) (v : Int), image[i]? = some v → startX ≤ (i : Int) → (i : Int) < endX →
      (segMap sharpenPixel startX endX (segMap blurPixel startX endX image))[i]?
          = some (sharpenPixel (blurPixel v)) ∧
      (segMap blurPixel startX endX (segMap sharpenPixel startX endX image))[i]?
          = some (blurPixel (sharpenPixel v)) := by
    intro i v hv hlo hhi
    simp [getElem?_segMap, hv, hlo, hhi]
  have hne : ∀ v : Int, sharpenPixel (blurPixel v) ≠ blurPixel (sharpenPixel v) := by
    intro v
    unfold sharpenPixel blurPixel toInt32
    omega
  refine ⟨segMap sharpenPixel startX endX (segMap blurPixel startX endX image),
    segMap blurPixel startX endX (segMap sharpenPixel startX endX image), ?_, ?_, ?_, ?_⟩
  · rw [hb]; exact hbs
  · rw [hs]; exact hsb
  · intro heq
    obtain ⟨k, rfl⟩ := Int.eq_ofNat_of_zero_le h0
    have hk : k < image.length := by omega
    have hv : image[k]? = some image[k] := List.getElem?_eq_getElem hk
    obtain ⟨e1, e2⟩ := key k image[k] hv le_rfl h1
    rw [heq, e2] at e1
    exact hne _ (Option.some.inj e1).symm
  · intro i v hv hlo hhi
    obtain ⟨e1, e2⟩ := key i v hv hlo hhi
    refine ⟨_, _, e1, e2, hne v, ?_, ?_, ?_⟩
    · unfold sharpenPixel blurPixel toInt32
      omega
    · unfold sharpenPixel blurPixel toInt32
      omega
    · intro r1 r2
      unfold InInt32 at r1 r2
      unfold sharpenPixel blurPixel toInt32
      omega

theorem blur_sharpen_order_matters_witness :
    ∃ bs sb,
      (applyBlur inputImage 0 12).bind (fun b => applySharpen b 0 12) = some bs ∧
      (applySharpen inputImage 0 12).bind (fun b => applyBlur b 0 12) = some sb ∧
      bs ≠ sb ∧
      ∀ (i : Nat) (v : Int), inputImage[i]? = some v → (0 : Int) ≤ (i : Int) → (i : Int) < 12 →
        ∃ p q, bs[i]? = some p ∧ sb[i]? = some q ∧ p ≠ q ∧
          p % 4294967296 = (3 * v + 100) % 4294967296 ∧
          q % 4294967296 = (3 * v + 300) % 4294967296 ∧
          (InInt32 (3 * v) → InInt32 (3 * v + 300) → p = 3 * v + 100 ∧ q = 3 * v + 300) :=
  blur_sharpen_order_matters inputImage 0 12 (by decide) (by decide) (by decide)

/-! ## Segment bounds in exact arithmetic -/

theorem mul_div_le_of_le {L N i : Nat} (hi : i ≤ N) : i * (L / N) ≤ L :=
  le_trans (Nat.mul_le_mul_right _ hi) (Nat.mul_div_le L N)

theorem segmentSize_exact {L N : Nat} (hN : 1 ≤ N) (hN2 : N < 2147483648)
    (hL : L < 2147483648) : segmentSize L (N : Int) = some ((L / N : Nat) : Int) := by
  have hq : L / N ≤ L := Nat.div_le_self L N
  unfold segmentSize
  rw [toSizeT_natCast (by omega)]
  have : N ≠ 0 := by omega
  simp only [this, if_false]
  rw [toInt32_natCast (by omega)]

theorem startX_exact {L N i : Nat} (hi : i ≤ N) (hL : L < 2147483648) :
    startX (i : Int) ((L / N : Nat) : Int) = ((i * (L / N) : Nat) : Int) := by
  have h := mul_div_le_of_le (L := L) hi
  unfold startX
  rw [← Nat.cast_mul, toInt32_natCast (by omega)]

theorem endX_exact {L N i : Nat} (hi : i < N) (hN2 : N < 2147483648) (hL : L < 2147483648) :
    endX L (N : Int) (i : Int) ((L / N : Nat) : Int)
      = if i + 1 = N then (L : Int) else (((i + 1) * (L / N) : Nat) : Int) := by
  have hN1 : toInt32 ((N : Int) - 1) = (N : Int) - 1 := by
    unfold toInt32
    omega
  unfold endX
  rw [hN1, startX_exact (le_of_lt hi) hL]
  by_cases hlast : i + 1 = N
  · have : (i : Int) = (N : Int) - 1 := by omega
    simp only [this, hlast, if_true]
    exact toInt32_natCast hL
  · have : ¬ ((i : Int) = (N : Int) - 1) := by omega
    simp only [this, hlast, if_false]
    have h := mul_div_le_of_le (L := L) (N := N) (i := i + 1) (by omega)
    rw [← Nat.cast_add, toInt32_natCast (by nlinarith)]
    congr 1
    ring

/-- Under the exact reading every segment lies inside the vector. -/
theorem segment_bounds {L N i : Nat} (hi : i < N) (hN2 : N < 2147483648)
    (hL : L < 2147483648) :
    0 ≤ startX (i : Int) ((L / N : Nat) : Int) ∧
    startX (i : Int) ((L / N : Nat) : Int) ≤ endX L (N : Int) (i : Int) ((L / N : Nat) : Int) ∧
    endX L (N : Int) (i : Int) ((L / N : Nat) : Int) ≤ (L : Int) := by
  rw [startX_exact (le_of_lt hi) hL, endX_exact hi hN2 hL]
  have h1 := mul_div_le_of_le (L := L) (N := N) (i := i) (le_of_lt hi)
  by_cases hlast : i + 1 = N
  · simp only [hlast, if_true]
    omega
  · simp only [hlast, if_false]
    have h2 := mul_div_le_of_le (L := L) (N := N) (i := i + 1) (by omega)
    have h3 : i * (L / N) ≤ (i + 1) * (L / N) := Nat.mul_le_mul_right _ (by omega)
    omega

/-- Two segments that share an index are the same segment. -/
theorem segment_disjoint {L N i k j : Nat} (hi : i < N) (hk : k < N)
    (hN2 : N < 2147483648) (hL : L < 2147483648)
    (hi1 : startX (i : Int) ((L / N : Nat) : Int) ≤ (j : Int))
    (hi2 : (j : Int) < endX L (N : Int) (i : Int) ((L / N : Nat) : Int))
    (hk1 : startX (k : Int) ((L / N : Nat) : Int) ≤ (j : Int))
    (hk2 : (j : Int) < endX L (N : Int) (k : Int) ((L / N : Nat) : Int)) : i = k := by
  rw [startX_exact (le_of_lt hi) hL] at hi1
  rw [startX_exact (le_of_lt hk) hL] at hk1
  rw [endX_exact hi hN2 hL] at hi2
  rw [endX_exact hk hN2 hL] at hk2
  rcases Nat.lt_trichotomy i k with h | h | h
  · exfalso
    have hne : ¬ (i + 1 = N) := by omega
    simp only [hne, if_false] at hi2
    have hm : (i + 1) * (L / N) ≤ k * (L / N) := Nat.mul_le_mul_right _ (by omega)
    omega
  · exact h
  · exfalso
    have hne : ¬ (k + 1 = N) := by omega
    simp only [hne, if_false] at hk2
    have hm : (k + 1) * (L / N) ≤ i * (L / N) := Nat.mul_le_mul_right _ (by omega)
    omega

/-- Every index of the vector lies in some segment. -/
theorem segment_cover {L N j : Nat} (hN : 1 ≤ N) (hN2 : N < 2147483648)
    (hL : L < 2147483648) (hj : j < L) :
    ∃ i : Nat, i < N ∧ startX (i : Int) ((L / N : Nat) : Int) ≤ (j : Int) ∧
      (j : Int) < endX L (N : Int) (i : Int) ((L / N : Nat) : Int) := by
  by_cases hq : L / N = 0 ∨ N - 1 ≤ j / (L / N)
  · refine ⟨N - 1, by omega, ?_, ?_⟩
    · rw [startX_exact (by omega) hL]
      rcases hq with hq | hq
      · rw [hq]; simp
      · have h1 : (N - 1) * (L / N) ≤ j / (L / N) * (L / N) := Nat.mul_le_mul_right _ hq
        have h2 := Nat.div_mul_le_self j (L / N)
        omega
    · rw [endX_exact (by omega) hN2 hL]
      have : N - 1 + 1 = N := by omega
      simp only [this, if_true]
      omega
  · push_neg at hq
    obtain ⟨hq0, hlt⟩ := hq
    have hpos : 0 < L / N := Nat.pos_of_ne_zero hq0
    refine ⟨j / (L / N), by omega, ?_, ?_⟩
    · rw [startX_exact (by omega) hL]
      have h2 := Nat.div_mul_le_self j (L / N)
      omega
    · rw [endX_exact (by omega) hN2 hL]
      have hne : ¬ (j / (L / N) + 1 = N) := by omega
      simp only [hne, if_false]
      have h3 := Nat.lt_mul_div_succ j hpos
      have h4 : (j / (L / N) + 1) * (L / N) = L / N * (j / (L / N) + 1) := Nat.mul_comm _ _
      omega

/-! ## Tasks run one after the other -/

theorem Thread.run_eq_segMap (t : Thread) (image : List Int) (h : t.InBounds image.length) :
    t.run image = some (segMap t.pixel t.startX t.endX image) := by
  obtain ⟨h0, h1, h2⟩ := h
  unfold Thread.run Thread.pixel
  cases t.filter with
  | blur => exact applyBlur_eq_segMap image _ _ h0 h1 h2
  | sharpen => exact applySharpen_eq_segMap image _ _ h0 h1 h2

theorem runOrder_closed (threads : List Thread) (L : Nat) :
    ∀ (order : List Nat) (image : List Int), image.length = L →
      (∀ j ∈ order, ∃ t, threads[j]? = some t ∧ t.InBounds L) →
      runOrder threads order image
        = some (image.mapIdx (fun i x => valueAfter threads order i x)) := by
  intro order
  induction order with
  | nil =>
    intro image _ _
    simp only [runOrder, Option.some.injEq]
    apply List.ext_getElem?
    intro n
    rw [List.getElem?_mapIdx]
    cases image[n]? <;> simp [valueAfter]
  | cons j rest ih =>
    intro image hlen hall
    obtain ⟨t, ht, hb⟩ := hall j (List.mem_cons_self j rest)
    have hrun := Thread.run_eq_segMap t image (by rw [hlen]; exact hb)
    simp only [runOrder, ht, hrun]
    rw [ih (segMap t.pixel t.startX t.endX image) (by rw [length_segMap]; exact hlen)
      (fun k hk => hall k (List.mem_cons_of_mem j hk))]
    simp only [Option.some.injEq]
    apply List.ext_getElem?
    intro n
    rw [List.getElem?_mapIdx, List.getElem?_mapIdx, getElem?_segMap]
    cases image[n]? with
    | none => rfl
    | some x =>
      simp only [Option.map_some', Option.some.injEq, valueAfter, List.foldl_cons, effectAt, ht]

theorem foldl_fixed (g : Int → Nat → Int) :
    ∀ (order : List Nat), (∀ j ∈ order, ∀ x, g x j = x) → ∀ x, order.foldl g x = x := by
  intro order
  induction order with
  | nil => intro _ x; rfl
  | cons j rest ih =>
    intro h x
    rw [List.foldl_cons, h j (List.mem_cons_self j rest) x]
    exact ih (fun k hk => h k (List.mem_cons_of_mem j hk)) x

theorem foldl_single (g : Int → Nat → Int) (a : Nat) :
    ∀ (order : List Nat), order.Nodup → a ∈ order →
      (∀ j ∈ order, j ≠ a → ∀ x, g x j = x) → ∀ x, order.foldl g x = g x a := by
  intro order
  induction order with
  | nil => intro _ ha; exact absurd ha (List.not_mem_nil a)
  | cons j rest ih =>
    intro hnd ha hid x
    rw [List.nodup_cons] at hnd
    rw [List.foldl_cons]
    by_cases hja : j = a
    · subst hja
      exact foldl_fixed g rest
        (fun k hk => hid k (List.mem_cons_of_mem j hk) (fun e => hnd.1 (e ▸ hk))) _
    · rw [hid j (List.mem_cons_self j rest) hja x]
      have ha2 : a ∈ rest := by
        rcases List.mem_cons.mp ha with e | e
        · exact absurd e.symm hja
        · exact e
      exact ih hnd.2 ha2 (fun k hk => hid k (List.mem_cons_of_mem j hk)) x

/-- When only positions `a` and `b` of a duplicate-free order change the value, the
result is decided by which of the two comes first. -/
theorem foldl_pair (g : Int → Nat → Int) (a b : Nat) (hab : a ≠ b)
    (hid : ∀ j, j ≠ a → j ≠ b → ∀ x, g x j = x) :
    ∀ (order : List Nat), order.Nodup → a ∈ order → b ∈ order →
      ∀ x, order.foldl g x = if comesBefore a b order then g (g x a) b else g (g x b) a := by
  intro order
  induction order with
  | nil => intro _ ha; exact absurd ha (List.not_mem_nil a)
  | cons j rest ih =>
    intro hnd ha hb x
    rw [List.nodup_cons] at hnd
    rw [List.foldl_cons]
    by_cases hja : j = a
    · subst hja
      have hb2 : b ∈ rest := by
        rcases List.mem_cons.mp hb with e | e
        · exact absurd e.symm hab
        · exact e
      simp only [comesBefore, if_true]
      exact foldl_single g b rest hnd.2 hb2
        (fun k hk hkb => hid k (fun e => hnd.1 (e ▸ hk)) hkb) _
    · by_cases hjb : j = b
      · subst hjb
        have ha2 : a ∈ rest := by
          rcases List.mem_cons.mp ha with e | e
          · exact absurd e hab
          · exact e
        simp only [comesBefore, hja, if_false, if_true]
        simp only [Bool.false_eq_true, if_false]
        exact foldl_single g a rest hnd.2 ha2
          (fun k hk hka => hid k hka (fun e => hnd.1 (e ▸ hk))) _
      · have ha2 : a ∈ rest := by
          rcases List.mem_cons.mp ha with e | e
          · exact absurd e.symm hja
          · exact e
        have hb2 : b ∈ rest := by
          rcases List.mem_cons.mp hb with e | e
          · exact absurd e.symm hjb
          · exact e
        rw [hid j hja hjb x]
        simp only [comesBefore, hja, hjb, if_false]
        exact ih hnd.2 ha2 hb2 x

/-! ## The vector of threads -/

theorem flatMap_range_pairs {α : Type} (f : Nat → List α) (hf : ∀ i, (f i).length = 2) :
    ∀ n : Nat, ((List.range n).flatMap f).length = 2 * n ∧
      ∀ k r : Nat, k < n → r < 2 → ((List.range n).flatMap f)[2 * k + r]? = (f k)[r]? := by
  intro n
  induction n with
  | zero => simp
  | succ n ih =>
    obtain ⟨hlen, hget⟩ := ih
    have happ : (List.range (n + 1)).flatMap f = (List.range n).flatMap f ++ f n := by
      rw [List.range_succ, List.flatMap_append]
      simp
    rw [happ]
    refine ⟨by rw [List.length_append, hlen, hf n]; ring, ?_⟩
    intro k r hk hr
    by_cases hkn : k < n
    · rw [List.getElem?_append_left (by rw [hlen]; omega)]
      exact hget k r hkn hr
    · have hkeq : k = n := by omega
      subst hkeq
      rw [List.getElem?_append_right (by rw [hlen]; omega), hlen]
      congr 1
      omega

theorem length_spawnThreads (size : Nat) (segs segSize : Int) :
    (spawnThreads size segs segSize).length = 2 * segs.toNat :=
  (flatMap_range_pairs (spawnPair size segs segSize) (fun _ => rfl) segs.toNat).1

theorem spawnThreads_blur (size : Nat) (segs segSize : Int) {k : Nat} (hk : k < segs.toNat) :
    (spawnThreads size segs segSize)[2 * k]?
      = some (Thread.mk Filter.blur (startX k segSize) (endX size segs k segSize)) := by
  have h := (flatMap_range_pairs (spawnPair size segs segSize) (fun _ => rfl) segs.toNat).2
    k 0 hk (by omega)
  simpa [spawnThreads, spawnPair] using h

theorem spawnThreads_sharpen (size : Nat) (segs segSize : Int) {k : Nat} (hk : k < segs.toNat) :
    (spawnThreads size segs segSize)[2 * k + 1]?
      = some (Thread.mk Filter.sharpen (startX k segSize) (endX size segs k segSize)) := by
  have h := (flatMap_range_pairs (spawnPair size segs segSize) (fun _ => rfl) segs.toNat).2
    k 1 hk (by omega)
  simpa [spawnThreads, spawnPair] using h

/-! ## Every sequential order of the spawned threads -/

/-- For a vector of fewer than `2^31` elements and `1 ≤ N < 2^31` segments: the
threads of `main`, run one after the other in any order, return; the final
element at an index of segment `k` is decided by which of the two threads of
segment `k` ran first. -/
theorem runOrder_mainThreads (v : List Int) (N : Nat) (hN : 1 ≤ N) (hN2 : N < 2147483648)
    (hL : v.length < 2147483648) (order : List Nat)
    (hperm : order.Perm (List.range (2 * N))) :
    ∃ ts s final, mainThreads v.length (N : Int) = some ts ∧ ts.length = 2 * N ∧
      segmentSize v.length (N : Int) = some s ∧
      runOrder ts order v = some final ∧ final.length = v.length ∧
      ∀ k : Nat, k < N → ∀ (i : Nat) (x : Int), v[i]? = some x →
        startX (k : Int) s ≤ (i : Int) → (i : Int) < endX v.length (N : Int) (k : Int) s →
        final[i]? = some (if comesBefore (2 * k) (2 * k + 1) order
          then sharpenPixel (blurPixel x) else blurPixel (sharpenPixel x)) := by
  have hs := segmentSize_exact hN hN2 hL
  have htoNat : ((N : Int)).toNat = N := Int.toNat_ofNat N
  have hlen : (spawnThreads v.length (N : Int) ((v.length / N : Nat) : Int)).length = 2 * N := by
    rw [length_spawnThreads, htoNat]
  have hnd : order.Nodup := (hperm.nodup_iff).mpr (List.nodup_range _)
  have hmem : ∀ j, j ∈ order ↔ j < 2 * N := by
    intro j
    rw [hperm.mem_iff, List.mem_range]
  -- every thread position holds a task whose segment is inside the vector
  have hthread : ∀ j, j < 2 * N → ∃ (t : Thread) (c : Nat), c < N ∧ (j = 2 * c ∨ j = 2 * c + 1) ∧
      (spawnThreads v.length (N : Int) ((v.length / N : Nat) : Int))[j]? = some t ∧
      t.startX = startX (c : Int) ((v.length / N : Nat) : Int) ∧
      t.endX = endX v.length (N : Int) (c : Int) ((v.length / N : Nat) : Int) ∧
      t.InBounds v.length := by
    intro j hj
    have hc : ∃ c : Nat, c < N ∧ (j = 2 * c ∨ j = 2 * c + 1) := ⟨j / 2, by omega, by omega⟩
    obtain ⟨c, hcN, hcase⟩ := hc
    have hcc : c < (N : Int).toNat := by rw [htoNat]; exact hcN
    rcases hcase with e | e
    · refine ⟨Thread.mk Filter.blur (startX (c : Int) ((v.length / N : Nat) : Int))
          (endX v.length (N : Int) (c : Int) ((v.length / N : Nat) : Int)),
        c, hcN, Or.inl e, ?_, rfl, rfl, ?_⟩
      · rw [e]
        exact spawnThreads_blur v.length (N : Int) _ hcc
      · exact segment_bounds hcN hN2 hL
    · refine ⟨Thread.mk Filter.sharpen (startX (c : Int) ((v.length / N : Nat) : Int))
          (endX v.length (N : Int) (c : Int) ((v.length / N : Nat) : Int)),
        c, hcN, Or.inr e, ?_, rfl, rfl, ?_⟩
      · rw [e]
        exact spawnThreads_sharpen v.length (N : Int) _ hcc
      · exact segment_bounds hcN hN2 hL
  refine ⟨_, _, _, by rw [mainThreads, hs]; rfl, hlen, hs,
    runOrder_closed _ v.length order v rfl
      (fun j hj => by
        obtain ⟨t, _, _, _, h1, _, _, h4⟩ := hthread j ((hmem j).mp hj)
        exact ⟨t, h1, h4⟩),
    by simp, ?_⟩
  intro k hk i x hx hlo hhi
  rw [List.getElem?_mapIdx, hx]
  simp only [Option.map_some', Option.some.injEq, valueAfter]
  have hkk : k < (N : Int).toNat := by rw [htoNat]; exact hk
  have hblur := spawnThreads_blur v.length (N : Int) ((v.length / N : Nat) : Int) hkk
  have hsharp := spawnThreads_sharpen v.length (N : Int) ((v.length / N : Nat) : Int) hkk
  have hid : ∀ j, j ≠ 2 * k → j ≠ 2 * k + 1 → ∀ y,
      effectAt (spawnThreads v.length (N : Int) ((v.length / N : Nat) : Int)) i y j = y := by
    intro j h1 h2 y
    by_cases hj : j < 2 * N
    · obtain ⟨t, c, hcN, hcase, e1, e2, e3, _⟩ := hthread j hj
      have hne : c ≠ k := by omega
      have hout : ¬ (t.startX ≤ (i : Int) ∧ (i : Int) < t.endX) := by
        rintro ⟨c1, c2⟩
        rw [e2] at c1
        rw [e3] at c2
        exact hne (segment_disjoint hcN hk hN2 hL c1 c2 hlo hhi)
      simp only [effectAt, e1, hout, if_false]
    · have hnone : (spawnThreads v.length (N : Int) ((v.length / N : Nat) : Int))[j]? = none := by
        rw [List.getElem?_eq_none_iff, hlen]
        omega
      simp only [effectAt, hnone]
  rw [foldl_pair _ (2 * k) (2 * k + 1) (by omega) hid order hnd
    ((hmem _).mpr (by omega)) ((hmem _).mpr (by omega)) x]
  have eb : ∀ y, effectAt (spawnThreads v.length (N : Int) ((v.length / N : Nat) : Int)) i y (2 * k)
      = blurPixel y := by
    intro y
    simp only [effectAt, hblur, hlo, hhi, and_self, if_true, Thread.pixel]
  have es : ∀ y,
      effectAt (spawnThreads v.length (N : Int) ((v.length / N : Nat) : Int)) i y (2 * k + 1)
      = sharpenPixel y := by
    intro y
    simp only [effectAt, hsharp, hlo, hhi, and_self, if_true, Thread.pixel]
  simp only [eb, es]

theorem pixels_exact {x : Int} (h1 : InInt32 (3 * x)) (h2 : InInt32 (3 * x + 300)) :
    sharpenPixel (blurPixel x) = 3 * x + 100 ∧ blurPixel (sharpenPixel x) = 3 * (x + 100) := by
  unfold InInt32 at h1 h2
  unfold sharpenPixel blurPixel toInt32
  omega

/-- The elements a filter order leaves at their value, in `int` arithmetic: `-50` and, by
wrap-around, `2^31 - 50` for blur then sharpen; `-150` and `2^31 - 150` for sharpen then
blur. -/
theorem pixels_fixed (x : Int) :
    (toInt32 (toInt32 (x * 3) + 100) = x ↔ x = -50 ∨ x = 2147483598) ∧
    (toInt32 (toInt32 (x + 100) * 3) = x ↔ x = -150 ∨ x = 2147483498) := by
  unfold toInt32
  constructor
  · constructor
    · intro h
      omega
    · rintro (h | h) <;> subst h <;> decide
  · constructor
    · intro h
      omega
    · rintro (h | h) <;> subst h <;> decide

/-- C10. For a vector `v` of fewer than `2^31` elements, `1 ≤ N < 2^31` segments and
values for which neither filter order overflows an `int`: the `2 * N` threads of
`main`, run one after the other in any order (a permutation of their positions),
return a vector of the same length; every element is `3 * v[i] + 100` or
`3 * (v[i] + 100)`; at every index of segment `k` it is the first when the blur
thread `2 * k` comes before the sharpen thread `2 * k + 1` and the second
otherwise; and any other order that agrees on these `N` comparisons gives the
same final vector. -/
theorem sequential_orders (v : List Int) (N : Nat) (hN : 1 ≤ N) (hN2 : N < 2147483648)
    (hL : v.length < 2147483648)
    (hov : ∀ x ∈ v, InInt32 (3 * x) ∧ InInt32 (3 * x + 300))
    (order : List Nat) (hperm : order.Perm (List.range (2 * N))) :
    ∃ ts s final, mainThreads v.length (N : Int) = some ts ∧ ts.length = 2 * N ∧
      segmentSize v.length (N : Int) = some s ∧
      runOrder ts order v = some final ∧ final.length = v.length ∧
      (∀ (i : Nat) (x : Int), v[i]? = some x →
        final[i]? = some (3 * x + 100) ∨ final[i]? = some (3 * (x + 100))) ∧
      (∀ k : Nat, k < N → ∀ (i : Nat) (x : Int), v[i]? = some x →
        startX (k : Int) s ≤ (i : Int) → (i : Int) < endX v.length (N : Int) (k : Int) s →
        final[i]? = some (if comesBefore (2 * k) (2 * k + 1) order
          then 3 * x + 100 else 3 * (x + 100))) ∧
      (∀ other : List Nat, other.Perm (List.range (2 * N)) →
        (∀ k : Nat, k < N →
          comesBefore (2 * k) (2 * k + 1) other = comesBefore (2 * k) (2 * k + 1) order) →
        runOrder ts other v = some final) := by
  obtain ⟨ts, s, final, hts, hlen, hs, hrun, hfl, hval⟩ :=
    runOrder_mainThreads v N hN hN2 hL order hperm
  have hs2 := segmentSize_exact hN hN2 hL
  have hseg : s = ((v.length / N : Nat) : Int) := by
    rw [hs] at hs2
    exact Option.some.inj hs2
  have hexact : ∀ k : Nat, k < N → ∀ (i : Nat) (x : Int), v[i]? = some x →
      startX (k : Int) s ≤ (i : Int) → (i : Int) < endX v.length (N : Int) (k : Int) s →
      final[i]? = some (if comesBefore (2 * k) (2 * k + 1) order
        then 3 * x + 100 else 3 * (x + 100)) := by
    intro k hk i x hx hlo hhi
    obtain ⟨r1, r2⟩ := hov x (List.mem_iff_getElem?.mpr ⟨i, hx⟩)
    obtain ⟨p1, p2⟩ := pixels_exact r1 r2
    rw [hval k hk i x hx hlo hhi, p1, p2]
  have hcover : ∀ (i : Nat) (x : Int), v[i]? = some x → ∃ k : Nat, k < N ∧
      startX (k : Int) s ≤ (i : Int) ∧ (i : Int) < endX v.length (N : Int) (k : Int) s := by
    intro i x hx
    have hi : i < v.length := by
      by_contra hcon
      rw [List.getElem?_eq_none_iff.mpr (by omega)] at hx
      exact Option.noConfusion hx
    rw [hseg]
    exact segment_cover hN hN2 hL hi
  refine ⟨ts, s, final, hts, hlen, hs, hrun, hfl, ?_, hexact, ?_⟩
  · intro i x hx
    obtain ⟨k, hk, hlo, hhi⟩ := hcover i x hx
    rw [hexact k hk i x hx hlo hhi]
    cases comesBefore (2 * k) (2 * k + 1) order
    · right; rfl
    · left; rfl
  · intro other hperm2 hagree
    obtain ⟨ts2, s2, final2, hts2, _, hs3, hrun2, hfl2, hval2⟩ :=
      runOrder_mainThreads v N hN hN2 hL other hperm2
    have e1 : ts2 = ts := by
      rw [hts] at hts2
      exact (Option.some.inj hts2).symm
    have e2 : s2 = s := by
      rw [hs] at hs3
      exact (Option.some.inj hs3).symm
    subst e1
    subst e2
    rw [hrun2]
    congr 1
    apply List.ext_getElem?
    intro i
    cases hx : v[i]? with
    | none =>
      have hi : v.length ≤ i := List.getElem?_eq_none_iff.mp hx
      rw [List.getElem?_eq_none_iff.mpr (by omega), List.getElem?_eq_none_iff.mpr (by omega)]
    | some x =>
      obtain ⟨k, hk, hlo, hhi⟩ := hcover i x hx
      rw [hval k hk i x hx hlo hhi, hval2 k hk i x hx hlo hhi, hagree k hk]

theorem sequential_orders_witness :
    ∃ ts s final, mainThreads inputImage.length ((4 : Nat) : Int) = some ts ∧ ts.length = 2 * 4 ∧
      segmentSize inputImage.length ((4 : Nat) : Int) = some s ∧
      runOrder ts [1, 0, 2, 3, 5, 4, 7, 6] inputImage = some final ∧
      final.length = inputImage.length ∧
      (∀ (i : Nat) (x : Int), inputImage[i]? = some x →
        final[i]? = some (3 * x + 100) ∨ final[i]? = some (3 * (x + 100))) ∧
      (∀ k : Nat, k < 4 → ∀ (i : Nat) (x : Int), inputImage[i]? = some x →
        startX (k : Int) s ≤ (i : Int) →
        (i : Int) < endX inputImage.length ((4 : Nat) : Int) (k : Int) s →
        final[i]? = some (if comesBefore (2 * k) (2 * k + 1) [1, 0, 2, 3, 5, 4, 7, 6]
          then 3 * x + 100 else 3 * (x + 100))) ∧
      (∀ other : List Nat, other.Perm (List.range (2 * 4)) →
        (∀ k : Nat, k < 4 →
          comesBefore (2 * k) (2 * k + 1) other
            = comesBefore (2 * k) (2 * k + 1) [1, 0, 2, 3, 5, 4, 7, 6]) →
        runOrder ts other inputImage = some final) :=
  sequential_orders inputImage 4 (by decide) (by decide) (by decide)
    (fun x hx => by
      have hx1 : x = 1 := by
        simp [inputImage] at hx
        exact hx
      rw [hx1]
      decide)
    [1, 0, 2, 3, 5, 4, 7, 6] (by decide)

/-- C5 (amended). With one segment and a vector `v` of fewer than `2^31` elements, the
two threads of `main` run one after the other in either order return; the
final vector is `v` with `v[i] * 3 + 100` at every index when the blur thread
comes first and with `(v[i] + 100) * 3` at every index when the sharpen thread
comes first, both computed in `int` arithmetic and equal to these integers
when nothing overflows. In `int` arithmetic the value equals the initial one
exactly for `v[i] = -50` or `2147483598` (blur first) and for `v[i] = -150` or
`2147483498` (sharpen first). For the twelve 1s the final vector is all 103 or
all 303. -/
theorem single_segment_orders (v : List Int) (hL : v.length < 2147483648)
    (order : List Nat) (hperm : order.Perm (List.range 2)) :
    ∃ ts final, mainThreads v.length 1 = some ts ∧ ts.length = 2 ∧
      runOrder ts order v = some final ∧
      (final = v.map (fun x => toInt32 (toInt32 (x * 3) + 100)) ∧ comesBefore 0 1 order = true ∨
       final = v.map (fun x => toInt32 (toInt32 (x + 100) * 3)) ∧ comesBefore 0 1 order = false) ∧
      (∀ x ∈ v, InInt32 (3 * x) → InInt32 (3 * x + 300) →
        toInt32 (toInt32 (x * 3) + 100) = x * 3 + 100 ∧
        toInt32 (toInt32 (x + 100) * 3) = (x + 100) * 3) ∧
      (∀ x ∈ v,
        (toInt32 (toInt32 (x * 3) + 100) = x ↔ x = -50 ∨ x = 2147483598) ∧
        (toInt32 (toInt32 (x + 100) * 3) = x ↔ x = -150 ∨ x = 2147483498)) ∧
      (v = inputImage → final = List.replicate 12 103 ∨ final = List.replicate 12 303) := by
  obtain ⟨ts, s, final, hts, hlen, hs, hrun, hfl, hval⟩ :=
    runOrder_mainThreads v 1 (le_refl 1) (by decide) hL order (by simpa using hperm)
  simp only [Nat.cast_one] at hts hs hval
  have hcover : ∀ (i : Nat) (x : Int), v[i]? = some x →
      final[i]? = some (if comesBefore 0 1 order
        then sharpenPixel (blurPixel x) else blurPixel (sharpenPixel x)) := by
    intro i x hx
    have hi : i < v.length := by
      by_contra hcon
      rw [List.getElem?_eq_none_iff.mpr (by omega)] at hx
      exact Option.noConfusion hx
    obtain ⟨k, hk, hlo, hhi⟩ := segment_cover (le_refl 1) (by decide) hL hi
    have hk0 : k = 0 := by omega
    subst hk0
    have hs2 := segmentSize_exact (L := v.length) (le_refl 1) (by decide) hL
    simp only [Nat.cast_one] at hs2 hlo hhi
    have hseg : s = ((v.length / 1 : Nat) : Int) := by
      rw [hs] at hs2
      exact Option.some.inj hs2
    rw [← hseg] at hlo hhi
    have := hval 0 (by decide) i x hx hlo hhi
    simpa using this
  have hmap : ∀ g : Int → Int, (∀ (i : Nat) (x : Int), v[i]? = some x → final[i]? = some (g x)) →
      final = v.map g := by
    intro g hg
    apply List.ext_getElem?
    intro i
    rw [List.getElem?_map]
    cases hx : v[i]? with
    | none =>
      have hi : v.length ≤ i := List.getElem?_eq_none_iff.mp hx
      rw [List.getElem?_eq_none_iff.mpr (by omega)]
      rfl
    | some x => rw [hg i x hx]; rfl
  have hcases : final = v.map (fun x => toInt32 (toInt32 (x * 3) + 100)) ∧
        comesBefore 0 1 order = true ∨
      final = v.map (fun x => toInt32 (toInt32 (x + 100) * 3)) ∧
        comesBefore 0 1 order = false := by
    cases hcb : comesBefore 0 1 order with
    | true =>
      left
      refine ⟨hmap _ (fun i x hx => ?_), rfl⟩
      rw [hcover i x hx, hcb]
      rfl
    | false =>
      right
      refine ⟨hmap _ (fun i x hx => ?_), rfl⟩
      rw [hcover i x hx, hcb]
      rfl
  refine ⟨ts, final, hts, by simpa using hlen, hrun, hcases, ?_, ?_, ?_⟩
  · intro x _ r1 r2
    obtain ⟨p1, p2⟩ := pixels_exact r1 r2
    unfold sharpenPixel blurPixel at p1 p2
    rw [p1, p2]
    exact ⟨by ring, by ring⟩
  · intro x _
    exact pixels_fixed x
  · intro hv
    subst hv
    rcases hcases with ⟨h, _⟩ | ⟨h, _⟩
    · left; rw [h]; decide
    · right; rw [h]; decide

theorem single_segment_orders_witness :
    ∃ ts final, mainThreads inputImage.length 1 = some ts ∧ ts.length = 2 ∧
      runOrder ts [1, 0] inputImage = some final ∧
      (final = inputImage.map (fun x => toInt32 (toInt32 (x * 3) + 100)) ∧
          comesBefore 0 1 [1, 0] = true ∨
       final = inputImage.map (fun x => toInt32 (toInt32 (x + 100) * 3)) ∧
          comesBefore 0 1 [1, 0] = false) ∧
      (∀ x ∈ inputImage, InInt32 (3 * x) → InInt32 (3 * x + 300) →
        toInt32 (toInt32 (x * 3) + 100) = x * 3 + 100 ∧
        toInt32 (toInt32 (x + 100) * 3) = (x + 100) * 3) ∧
      (∀ x ∈ inputImage,
        (toInt32 (toInt32 (x * 3) + 100) = x ↔ x = -50 ∨ x = 2147483598) ∧
        (toInt32 (toInt32 (x + 100) * 3) = x ↔ x = -150 ∨ x = 2147483498)) ∧
      (inputImage = inputImage →
        final = List.replicate 12 103 ∨ final = List.replicate 12 303) :=
  single_segment_orders inputImage (by decide) [1, 0] (by decide)

theorem runOrder_long_vector (v : List Int) (h : v.length = 2147483648) :
    ∃ ts, mainThreads v.length 1 = some ts ∧
      runOrder ts [0, 1] v = some v ∧ runOrder ts [1, 0] v = some v := by
  refine ⟨[Thread.mk Filter.blur 0 (-2147483648), Thread.mk Filter.sharpen 0 (-2147483648)], ?_, ?_, ?_⟩
  · rw [h]
    decide
  · simp [runOrder, Thread.run, applyBlur, applySharpen, elementLoop]
  · simp [runOrder, Thread.run, applyBlur, applySharpen, elementLoop]

/-- C5 as stated fails in two ways. For a vector of `2^31` ones the end of the only
segment is `-2^31` after conversion to `int`, neither loop runs, and in both orders the
final vector is the initial one, whose element 0 is still 1 and neither `1 * 3 + 100`
nor `(1 + 100) * 3`. For the one-element vector `[-50]` the blur-first order gives
`-50 * 3 + 100 = -50`, and for `[-150]` the sharpen-first order gives
`(-150 + 100) * 3 = -150`: both filters ran and the element holds its initial value. -/
theorem single_segment_unmodified :
    (∃ ts, mainThreads [(-50 : Int)].length 1 = some ts ∧
      runOrder ts [0, 1] [-50] = some [-50]) ∧
    (∃ ts, mainThreads [(-150 : Int)].length 1 = some ts ∧
      runOrder ts [1, 0] [-150] = some [-150]) ∧
    (∃ ts, mainThreads (List.replicate 2147483648 (1 : Int)).length 1 = some ts ∧
      runOrder ts [0, 1] (List.replicate 2147483648 (1 : Int))
        = some (List.replicate 2147483648 (1 : Int)) ∧
      runOrder ts [1, 0] (List.replicate 2147483648 (1 : Int))
        = some (List.replicate 2147483648 (1 : Int)) ∧
      (List.replicate 2147483648 (1 : Int))[0]? = some 1 ∧
      (1 : Int) ≠ 1 * 3 + 100 ∧ (1 : Int) ≠ (1 + 100) * 3) := by
  refine ⟨⟨[Thread.mk Filter.blur 0 1, Thread.mk Filter.sharpen 0 1], by decide, by decide⟩,
    ⟨[Thread.mk Filter.blur 0 1, Thread.mk Filter.sharpen 0 1], by decide, by decide⟩, ?_⟩
  obtain ⟨ts, h1, h2, h3⟩ :=
    runOrder_long_vector (List.replicate 2147483648 (1 : Int)) (List.length_replicate _ _)
  refine ⟨ts, h1, h2, h3, ?_, by decide, by decide⟩
  rw [List.getElem?_replicate]
  simp

/-! ## Mutual exclusion -/

theorem exclusive_init (image : List Int) : (Sys.init image).Exclusive := by
  constructor
  · intro _ j hj
    obtain ⟨i, hi⟩ := hj
    simp [Sys.init] at hi
  · intro a b ha _
    obtain ⟨i, hi⟩ := ha
    simp [Sys.init] at hi

theorem exclusive_spawnStep {threads : List Thread} {s next : Sys} (h : s.Exclusive)
    (hstep : spawnStep threads s = some next) : next.Exclusive := by
  unfold spawnStep at hstep
  split at hstep
  · have hn := Option.some.inj hstep
    subst hn
    have hsame : ∀ j, (Sys.mk s.image s.locked (s.pcs ++ [Pc.created])).inside j → s.inside j := by
      intro j hj
      obtain ⟨i, hi⟩ := hj
      simp only at hi
      by_cases hlt : j < s.pcs.length
      · rw [List.getElem?_append_left hlt] at hi
        exact ⟨i, hi⟩
      · rw [List.getElem?_append_right (by omega)] at hi
        cases hk : j - s.pcs.length with
        | zero => rw [hk] at hi; simp at hi
        | succ m => rw [hk] at hi; simp at hi
    constructor
    · intro hl j hj
      exact h.1 hl j (hsame j hj)
    · intro a b ha hb
      exact h.2 a b (hsame a ha) (hsame b hb)
  · exact Option.noConfusion hstep

theorem exclusive_stepThread {threads : List Thread} {j : Nat} {s next : Sys} (h : s.Exclusive)
    (hstep : stepThread threads j s = some next) : next.Exclusive := by
  unfold stepThread at hstep
  split at hstep
  · -- the lock_guard constructor
    rename_i t hth hpc
    split at hstep
    · exact Option.noConfusion hstep
    · rename_i hfree
      have hn := Option.some.inj hstep
      subst hn
      have hnone : ∀ a, ¬ s.inside a := h.1 (by simpa using hfree)
      have honly : ∀ a, (Sys.mk s.image true (s.pcs.set j (Pc.inLoop t.startX))).inside a → a = j := by
        intro a ha
        by_contra hne
        obtain ⟨i, hi⟩ := ha
        simp only at hi
        rw [List.getElem?_set_ne (fun e => hne e.symm)] at hi
        exact hnone a ⟨i, hi⟩
      constructor
      · intro hl
        simp at hl
      · intro a b ha hb
        rw [honly a ha, honly b hb]
  · -- inside the loop
    rename_i t i hth hpc
    have hj : s.inside j := ⟨i, hpc⟩
    split at hstep
    · split at hstep
      · exact Option.noConfusion hstep
      · split at hstep
        · exact Option.noConfusion hstep
        · rename_i x hx
          have hn := Option.some.inj hstep
          subst hn
          have honly : ∀ a, (Sys.mk (s.image.set i.toNat (t.pixel x)) s.locked
              (s.pcs.set j (Pc.inLoop (i + 1)))).inside a → a = j := by
            intro a ha
            by_contra hne
            obtain ⟨k, hk⟩ := ha
            simp only at hk
            rw [List.getElem?_set_ne (fun e => hne e.symm)] at hk
            exact hne (h.2 a j ⟨k, hk⟩ hj)
          constructor
          · intro hl
            exact absurd hj (h.1 hl j)
          · intro a b ha hb
            rw [honly a ha, honly b hb]
    · -- the lock_guard destructor
      have hn := Option.some.inj hstep
      subst hn
      have hnone : ∀ a, ¬ (Sys.mk s.image false (s.pcs.set j Pc.finished)).inside a := by
        intro a ha
        obtain ⟨k, hk⟩ := ha
        simp only at hk
        by_cases hne : a = j
        · subst hne
          rw [List.getElem?_set] at hk
          simp only [if_true] at hk
          split at hk
          · exact Pc.noConfusion (Option.some.inj hk)
          · exact Option.noConfusion hk
        · rw [List.getElem?_set_ne (fun e => hne e.symm)] at hk
          exact hne (h.2 a j ⟨k, hk⟩ hj)
      constructor
      · intro _ a ha
        exact hnone a ha
      · intro a b ha _
        exact absurd ha (hnone a)
  · exact Option.noConfusion hstep

theorem exclusive_reachable {threads : List Thread} {image : List Int} {s : Sys}
    (h : Reachable threads image s) : s.Exclusive := by
  induction h with
  | init => exact exclusive_init image
  | step _ hstep ih =>
    rcases hstep with hsp | ⟨j, hth⟩
    · exact exclusive_spawnStep ih hsp
    · exact exclusive_stepThread ih hth

/-! ## Interleaved executions are sequential orders -/

theorem runOrder_append (threads : List Thread) :
    ∀ (xs ys : List Nat) (image : List Int),
      runOrder threads (xs ++ ys) image
        = (runOrder threads xs image).bind (fun mid => runOrder threads ys mid) := by
  intro xs
  induction xs with
  | nil => intro ys image; rfl
  | cons j rest ih =>
    intro ys image
    simp only [List.cons_append, runOrder]
    cases threads[j]? with
    | none => rfl
    | some t =>
      simp only
      cases t.run image with
      | none => rfl
      | some next => exact ih ys next

theorem Thread.run_eq_elementLoop (t : Thread) (image : List Int) :
    t.run image = elementLoop t.pixel image t.startX (t.endX - t.startX).toNat := by
  unfold Thread.run Thread.pixel applyBlur applySharpen
  cases t.filter <;> rfl

theorem getElem?_append_created {pcs : List Pc} {j : Nat} {pc : Pc} (hpc : pc ≠ Pc.created) :
    (pcs ++ [Pc.created])[j]? = some pc ↔ pcs[j]? = some pc := by
  by_cases hlt : j < pcs.length
  · rw [List.getElem?_append_left hlt]
  · have hnone : pcs[j]? = none := List.getElem?_eq_none_iff.mpr (by omega)
    rw [List.getElem?_append_right (by omega), hnone]
    constructor
    · intro h
      exfalso
      cases hk : j - pcs.length with
      | zero =>
        rw [hk] at h
        simp only [List.getElem?_cons_zero, Option.some.injEq] at h
        exact hpc h.symm
      | succ m =>
        rw [hk] at h
        simp at h
    · intro h
      exact Option.noConfusion h

theorem linearised_reachable {threads : List Thread} {image : List Int} {s : Sys}
    (h : Reachable threads image s) : s.Linearised threads image := by
  induction h with
  | init =>
    refine ⟨[], List.nodup_nil, Nat.zero_le _, ?_, ?_, ?_⟩
    · intro j
      simp [Sys.init]
    · intro _
      rfl
    · intro j i t hpc _
      simp [Sys.init] at hpc
  | @step s next hr hstep ih =>
    have hex := exclusive_reachable hr
    obtain ⟨done, hnd, hle, hmem, hidle, hbusy⟩ := ih
    rcases hstep with hsp | ⟨j, hth⟩
    · -- main creates a thread
      unfold spawnStep at hsp
      split at hsp
      · rename_i hroom
        have hn := Option.some.inj hsp
        subst hn
        refine ⟨done, hnd, ?_, ?_, ?_, ?_⟩
        · simp only [List.length_append, List.length_singleton]
          omega
        · intro k
          rw [hmem k]
          exact (getElem?_append_created (by decide)).symm
        · intro hno
          refine hidle (fun k hk => hno k ?_)
          obtain ⟨i, hi⟩ := hk
          exact ⟨i, (getElem?_append_created (by simp)).mpr hi⟩
        · intro k i t hpc htk
          exact hbusy k i t ((getElem?_append_created (by simp)).mp hpc) htk
      · exact Option.noConfusion hsp
    · unfold stepThread at hth
      split at hth
      · -- the lock_guard constructor
        rename_i t htj hpc
        split at hth
        · exact Option.noConfusion hth
        · rename_i hfree
          have hn := Option.some.inj hth
          subst hn
          have hnone : ∀ a, ¬ s.inside a := hex.1 (by simpa using hfree)
          have hjlt : j < s.pcs.length := by
            by_contra hcon
            rw [List.getElem?_eq_none_iff.mpr (by omega)] at hpc
            exact Option.noConfusion hpc
          refine ⟨done, hnd, by simpa using hle, ?_, ?_, ?_⟩
          · intro k
            rw [hmem k]
            simp only
            by_cases hk : j = k
            · subst hk
              rw [hpc, List.getElem?_set_self hjlt]
              simp
            · rw [List.getElem?_set_ne hk]
          · intro hno
            exact absurd ⟨t.startX, by simp only; exact List.getElem?_set_self hjlt⟩ (hno j)
          · intro k i u hk hu
            simp only at hk
            by_cases hkj : j = k
            · subst hkj
              rw [List.getElem?_set_self hjlt] at hk
              have hi : t.startX = i := by
                have := Option.some.inj hk
                exact Pc.inLoop.inj this
              rw [htj] at hu
              have htu : t = u := Option.some.inj hu
              subst hi
              subst htu
              exact ⟨s.image, hidle hnone, (Thread.run_eq_elementLoop t s.image).symm⟩
            · rw [List.getElem?_set_ne hkj] at hk
              exact absurd ⟨i, hk⟩ (hnone k)
      · -- inside the loop
        rename_i t i htj hpc
        have hj : s.inside j := ⟨i, hpc⟩
        have hjlt : j < s.pcs.length := by
          by_contra hcon
          rw [List.getElem?_eq_none_iff.mpr (by omega)] at hpc
          exact Option.noConfusion hpc
        obtain ⟨before, hbefore, hrest⟩ := hbusy j i t hpc htj
        split at hth
        · rename_i hlt
          split at hth
          · exact Option.noConfusion hth
          · rename_i hneg
            split at hth
            · exact Option.noConfusion hth
            · rename_i x hx
              have hn := Option.some.inj hth
              subst hn
              refine ⟨done, hnd, by simpa using hle, ?_, ?_, ?_⟩
              · intro k
                rw [hmem k]
                simp only
                by_cases hk : j = k
                · subst hk
                  rw [hpc, List.getElem?_set_self hjlt]
                  simp
                · rw [List.getElem?_set_ne hk]
              · intro hno
                exact absurd ⟨i + 1, by simp only; exact List.getElem?_set_self hjlt⟩ (hno j)
              · intro k i2 u hk hu
                simp only at hk
                by_cases hkj : j = k
                · subst hkj
                  rw [List.getElem?_set_self hjlt] at hk
                  have hi : i + 1 = i2 := Pc.inLoop.inj (Option.some.inj hk)
                  rw [htj] at hu
                  have htu : t = u := Option.some.inj hu
                  subst hi
                  subst htu
                  refine ⟨before, hbefore, ?_⟩
                  rw [← hrest]
                  have hcount : (t.endX - i).toNat = (t.endX - (i + 1)).toNat + 1 := by omega
                  rw [hcount]
                  simp only [elementLoop, hneg, if_false, hx]
                · rw [List.getElem?_set_ne hkj] at hk
                  exact absurd (hex.2 k j ⟨i2, hk⟩ hj) (fun e => hkj e.symm)
        · -- the lock_guard destructor
          rename_i hge
          have hn := Option.some.inj hth
          subst hn
          have hjdone : j ∉ done := by
            intro hin
            rw [(hmem j).mp hin] at hpc
            exact Pc.noConfusion (Option.some.inj hpc)
          have hnone : ∀ a, ¬ (Sys.mk s.image false (s.pcs.set j Pc.finished)).inside a := by
            intro a ha
            obtain ⟨k, hk⟩ := ha
            simp only at hk
            by_cases hne : j = a
            · subst hne
              rw [List.getElem?_set_self hjlt] at hk
              exact Pc.noConfusion (Option.some.inj hk)
            · rw [List.getElem?_set_ne hne] at hk
              exact hne (hex.2 a j ⟨k, hk⟩ hj).symm
          have hzero : (t.endX - i).toNat = 0 := by omega
          rw [hzero] at hrest
          simp only [elementLoop] at hrest
          refine ⟨done ++ [j], ?_, by simpa using hle, ?_, ?_, ?_⟩
          · rw [List.nodup_append]
            refine ⟨hnd, List.nodup_singleton j, ?_⟩
            intro a ha hb
            rw [List.mem_singleton] at hb
            subst hb
            exact hjdone ha
          · intro k
            simp only [List.mem_append, List.mem_singleton]
            by_cases hk : j = k
            · subst hk
              rw [List.getElem?_set_self hjlt]
              simp
            · rw [List.getElem?_set_ne hk, hmem k]
              constructor
              · rintro (h1 | h1)
                · exact h1
                · exact absurd h1.symm hk
              · intro h1
                exact Or.inl h1
          · intro _
            rw [runOrder_append, hbefore]
            simp only [Option.some_bind, runOrder, htj, ← hrest]
          · intro k i2 u hk _
            exact absurd ⟨i2, hk⟩ (hnone k)
      · exact Option.noConfusion hth

/-- When every thread of the vector has finished, the image is the one obtained by
running the threads one after the other in some order: the order in which they
acquired the mutex. -/
theorem finished_is_sequential {threads : List Thread} {image : List Int} {s : Sys}
    (hr : Reachable threads image s)
    (hall : ∀ j, j < threads.length → s.pcs[j]? = some Pc.finished) :
    ∃ order : List Nat, order.Perm (List.range threads.length) ∧
      runOrder threads order image = some s.image := by
  obtain ⟨done, hnd, hle, hmem, hidle, _⟩ := linearised_reachable hr
  refine ⟨done, ?_, ?_⟩
  · rw [List.perm_ext_iff_of_nodup hnd (List.nodup_range _)]
    intro j
    rw [hmem j, List.mem_range]
    constructor
    · intro hfin
      by_contra hcon
      rw [List.getElem?_eq_none_iff.mpr (by omega)] at hfin
      exact Option.noConfusion hfin
    · exact hall j
  · apply hidle
    intro j hj
    obtain ⟨i, hi⟩ := hj
    by_cases hlt : j < threads.length
    · rw [hall j hlt] at hi
      exact Pc.noConfusion (Option.some.inj hi)
    · rw [List.getElem?_eq_none_iff.mpr (by omega)] at hi
      exact Option.noConfusion hi

/-- Every finished interleaved execution of the threads of `main` leaves, at every index,
the blur-then-sharpen or the sharpen-then-blur value of the initial element. -/
theorem finished_execution_values (v : List Int) (N : Nat) (hN : 1 ≤ N) (hN2 : N < 2147483648)
    (hL : v.length < 2147483648) (ts : List Thread)
    (hts : mainThreads v.length (N : Int) = some ts) (s : Sys) (hr : Reachable ts v s)
    (hall : ∀ j, j < 2 * N → s.pcs[j]? = some Pc.finished) :
    ∀ (i : Nat) (x : Int), v[i]? = some x →
      s.image[i]? = some (sharpenPixel (blurPixel x)) ∨
      s.image[i]? = some (blurPixel (sharpenPixel x)) := by
  obtain ⟨ts0, _, _, hts0, hlen0, _, _, _, _⟩ :=
    runOrder_mainThreads v N hN hN2 hL (List.range (2 * N)) (List.Perm.refl _)
  have e0 : ts0 = ts := by
    rw [hts] at hts0
    exact (Option.some.inj hts0).symm
  subst e0
  obtain ⟨order, hperm, hrun⟩ := finished_is_sequential hr (by rw [hlen0]; exact hall)
  rw [hlen0] at hperm
  obtain ⟨ts1, s1, final, hts1, _, hs1, hrun1, _, hval⟩ :=
    runOrder_mainThreads v N hN hN2 hL order hperm
  have e1 : ts1 = ts0 := by
    rw [hts] at hts1
    exact (Option.some.inj hts1).symm
  subst e1
  have e2 : final = s.image := by
    rw [hrun] at hrun1
    exact (Option.some.inj hrun1).symm
  subst e2
  intro i x hx
  have hi : i < v.length := by
    by_contra hcon
    rw [List.getElem?_eq_none_iff.mpr (by omega)] at hx
    exact Option.noConfusion hx
  obtain ⟨k, hk, hlo, hhi⟩ := segment_cover hN hN2 hL hi
  have hseg : s1 = ((v.length / N : Nat) : Int) := by
    have hs2 := segmentSize_exact hN hN2 hL
    rw [hs1] at hs2
    exact Option.some.inj hs2
  rw [← hseg] at hlo hhi
  rw [hval k hk i x hx hlo hhi]
  cases comesBefore (2 * k) (2 * k + 1) order
  · right; rfl
  · left; rfl

/-- C8. In every state that an interleaving of `main` and the `2 * segments` threads it
creates can reach, at most one thread is inside its element loop (its critical
section), and the mutex is locked while a thread is inside. -/
theorem mutual_exclusion (image : List Int) (segs : Int) (ts : List Thread)
    (hts : mainThreads image.length segs = some ts) (s : Sys)
    (hr : Reachable ts image s) :
    ts.length = 2 * segs.toNat ∧
    (∀ a b : Nat, s.inside a → s.inside b → a = b) ∧
    (∀ a : Nat, s.inside a → s.locked = true) := by
  have h := exclusive_reachable hr
  refine ⟨?_, h.2, ?_⟩
  · unfold mainThreads at hts
    cases hsz : segmentSize image.length segs with
    | none =>
      rw [hsz] at hts
      exact Option.noConfusion hts
    | some sz =>
      rw [hsz] at hts
      rw [← Option.some.inj hts]
      exact length_spawnThreads _ _ _
  · intro a ha
    cases hl : s.locked with
    | true => rfl
    | false => exact absurd ha (h.1 hl a)

theorem mutual_exclusion_witness :
    ∃ (ts : List Thread) (s : Sys), mainThreads inputImage.length 4 = some ts ∧
      Reachable ts inputImage s ∧ s.inside 1 ∧
      ts.length = 2 * (4 : Int).toNat ∧
      (∀ a b : Nat, s.inside a → s.inside b → a = b) ∧
      (∀ a : Nat, s.inside a → s.locked = true) := by
  have hts : mainThreads inputImage.length 4 = some (spawnThreads 12 4 3) := by decide
  have r0 : Reachable (spawnThreads 12 4 3) inputImage (Sys.mk inputImage false []) :=
    Reachable.init
  have r1 : Reachable (spawnThreads 12 4 3) inputImage (Sys.mk inputImage false [Pc.created]) :=
    Reachable.step r0 (Or.inl (by decide))
  have r2 : Reachable (spawnThreads 12 4 3) inputImage
      (Sys.mk inputImage false [Pc.created, Pc.created]) :=
    Reachable.step r1 (Or.inl (by decide))
  have r3 : Reachable (spawnThreads 12 4 3) inputImage
      (Sys.mk inputImage true [Pc.created, Pc.inLoop 0]) :=
    Reachable.step r2 (Or.inr ⟨1, by decide⟩)
  have hr : Reachable (spawnThreads 12 4 3) inputImage
      (Sys.mk [101, 1, 1, 1, 1, 1, 1, 1, 1, 1, 1, 1] true [Pc.created, Pc.inLoop 1]) :=
    Reachable.step r3 (Or.inr ⟨1, by decide⟩)
  exact ⟨_, _, hts, hr, ⟨1, rfl⟩, mutual_exclusion inputImage 4 _ hts _ hr⟩

/-! ## The partition computed by `main` -/

/-- C1 (amended). For a vector of fewer than `2^31` elements and a segment
count `1 ≤ N < 2^31`, the segment size is defined and the `N` segments
`[startX i, endX i)` partition `[0, L)`: every index below `L` lies in exactly
one segment, and a segment holds no index outside `[0, L)`. -/
theorem segments_partition (L N : Nat) (hN : 1 ≤ N) (hN2 : N < 2147483648)
    (hL : L < 2147483648) :
    ∃ s, segmentSize L (N : Int) = some s ∧
      (∀ j : Nat, j < L →
        ∃! i : Nat, i < N ∧ startX (i : Int) s ≤ (j : Int) ∧ (j : Int) < endX L (N : Int) (i : Int) s) ∧
      (∀ i : Nat, i < N → ∀ j : Int,
        startX (i : Int) s ≤ j → j < endX L (N : Int) (i : Int) s → 0 ≤ j ∧ j < (L : Int)) := by
  refine ⟨_, segmentSize_exact hN hN2 hL, ?_, ?_⟩
  · intro j hj
    obtain ⟨i, hi, h1, h2⟩ := segment_cover hN hN2 hL hj
    refine ⟨i, ⟨hi, h1, h2⟩, ?_⟩
    rintro k ⟨hk, k1, k2⟩
    exact segment_disjoint hk hi hN2 hL k1 k2 h1 h2
  · intro i hi j h1 h2
    obtain ⟨b0, _, b2⟩ := segment_bounds (L := L) hi hN2 hL
    omega

theorem segments_partition_witness :
    ∃ s, segmentSize 12 ((5 : Nat) : Int) = some s ∧
      (∀ j : Nat, j < 12 →
        ∃! i : Nat, i < 5 ∧ startX (i : Int) s ≤ (j : Int) ∧
          (j : Int) < endX 12 ((5 : Nat) : Int) (i : Int) s) ∧
      (∀ i : Nat, i < 5 → ∀ j : Int,
        startX (i : Int) s ≤ j → j < endX 12 ((5 : Nat) : Int) (i : Int) s →
          0 ≤ j ∧ j < ((12 : Nat) : Int)) :=
  segments_partition 12 5 (by decide) (by decide) (by decide)

/-- C1 as stated fails for a vector of `2^31` elements and one segment: the
segment size and the end of the only segment are `-2^31` after conversion to
`int`, so index 0 lies in no segment. -/
theorem segments_partition_fails_long_vector :
    segmentSize 2147483648 1 = some (-2147483648) ∧
    endX 2147483648 1 0 (-2147483648) = -2147483648 ∧
    ¬ ∃ i : Nat, i < 1 ∧ startX (i : Int) (-2147483648) ≤ ((0 : Nat) : Int) ∧
        ((0 : Nat) : Int) < endX 2147483648 1 (i : Int) (-2147483648) := by
  refine ⟨by decide, by decide, ?_⟩
  rintro ⟨i, hi, _, h2⟩
  have hi0 : i = 0 := by omega
  subst hi0
  revert h2
  decide

/-- C2 (amended). For a vector of fewer than `2^31` elements and a segment
count `1 ≤ N < 2^31`: the segment size is `L / N` (rounded down),
`startX i = i * (L / N)` for every `i < N`, `endX i = startX (i + 1)` for every
`i < N - 1`, and `endX (N - 1) = L`. -/
theorem segment_bounds_formula (L N : Nat) (hN : 1 ≤ N) (hN2 : N < 2147483648)
    (hL : L < 2147483648) :
    ∃ s, segmentSize L (N : Int) = some s ∧ s = ((L / N : Nat) : Int) ∧
      (∀ i : Nat, i < N → startX (i : Int) s = (i : Int) * ((L / N : Nat) : Int)) ∧
      (∀ i : Nat, i + 1 < N → endX L (N : Int) (i : Int) s = startX ((i + 1 : Nat) : Int) s) ∧
      endX L (N : Int) ((N - 1 : Nat) : Int) s = (L : Int) := by
  refine ⟨_, segmentSize_exact hN hN2 hL, rfl, ?_, ?_, ?_⟩
  · intro i hi
    rw [startX_exact (le_of_lt hi) hL, Nat.cast_mul]
  · intro i hi
    rw [endX_exact (by omega) hN2 hL, startX_exact (by omega) hL]
    have : ¬ (i + 1 = N) := by omega
    simp only [this, if_false]
  · rw [endX_exact (by omega) hN2 hL]
    have : N - 1 + 1 = N := by omega
    simp only [this, if_true]

theorem segment_bounds_formula_witness :
    ∃ s, segmentSize 12 ((5 : Nat) : Int) = some s ∧ s = ((12 / 5 : Nat) : Int) ∧
      (∀ i : Nat, i < 5 → startX (i : Int) s = (i : Int) * ((12 / 5 : Nat) : Int)) ∧
      (∀ i : Nat, i + 1 < 5 →
        endX 12 ((5 : Nat) : Int) (i : Int) s = startX ((i + 1 : Nat) : Int) s) ∧
      endX 12 ((5 : Nat) : Int) ((5 - 1 : Nat) : Int) s = ((12 : Nat) : Int) :=
  segment_bounds_formula 12 5 (by decide) (by decide) (by decide)

/-- C2 as stated fails for a vector of `2^32` elements and two segments: the
segment size `2^31` becomes `-2^31` as an `int`, segment 1 starts at `-2^31`
instead of `1 * (L / N) = 2^31`, and the last segment ends at 0 instead of
`L`. -/
theorem segment_bounds_formula_fails_long_vector :
    segmentSize 4294967296 2 = some (-2147483648) ∧
    startX 1 (-2147483648) ≠ 1 * ((4294967296 / 2 : Nat) : Int) ∧
    endX 4294967296 2 1 (-2147483648) ≠ ((4294967296 : Nat) : Int) := by
  decide

/-- C7 (amended). For a segment count `1 ≤ N < 2^31` and a vector shorter than
`N`, the segment size is defined and at least one of the `N` segments is
empty: segment 0 starts where it ends. -/
theorem empty_segment_of_lt (L N : Nat) (hN2 : N < 2147483648) (hLN : L < N) :
    ∃ s, segmentSize L (N : Int) = some s ∧
      ∃ i : Nat, i < N ∧ startX (i : Int) s = endX L (N : Int) (i : Int) s := by
  have hN : 1 ≤ N := by omega
  have hL : L < 2147483648 := by omega
  refine ⟨_, segmentSize_exact hN hN2 hL, 0, by omega, ?_⟩
  rw [startX_exact (Nat.zero_le N) hL, endX_exact (by omega) hN2 hL]
  have hq : L / N = 0 := Nat.div_eq_of_lt hLN
  by_cases h1 : 0 + 1 = N
  · simp only [h1, if_true]
    have : L = 0 := by omega
    simp [this]
  · simp only [h1, if_false, hq]

theorem empty_segment_of_lt_witness :
    ∃ s, segmentSize 12 ((16 : Nat) : Int) = some s ∧
      ∃ i : Nat, i < 16 ∧ startX (i : Int) s = endX 12 ((16 : Nat) : Int) (i : Int) s :=
  empty_segment_of_lt 12 16 (by decide) (by decide)

/-- C7 as stated fails when the segment count equals the length: with the
twelve-element vector and twelve segments the segment size is 1 and no
segment is empty. -/
theorem no_empty_segment_twelve :
    12 ≥ inputImage.length ∧ segmentSize inputImage.length 12 = some 1 ∧
    ∀ i : Nat, i < 12 → startX (i : Int) 1 ≠ endX inputImage.length 12 (i : Int) 1 := by
  decide

/-- C6: the code at `hardware_concurrency() == 0`. The segment count is 0, not
clamped to 1, and `image.size() / segments` is a division by zero: the segment
size is undefined and so is the rest of `main`. -/
theorem segments_zero_division :
    segments 0 = 0 ∧ ¬ (1 ≤ segments 0) ∧
    segmentSize inputImage.length (segments 0) = none ∧
    mainThreads inputImage.length (segments 0) = none := by
  decide

end TestMutex
